import Mathlib

/-!
# Verification of the TyDB schema/query core

Shallow embedding of the TyDB object-relational mapping layer
(`tydb/models.py`, `tydb/queries.py`, `tydb/session.py`, `tydb/dialects.py`)
together with proofs settling the frozen claims about it.

Each section embeds one part of the source.  Definitions are translated
from the Python source; where a definition instead follows the wording of
the specification (for refinement-style comparisons) this is called out in
its doc comment.
-/

namespace TyDB

/-! ## Reference graph walker (`TableMeta.walk_refs`, models.py lines 91-104)

A schema is a finite set of tables (`Fin n`) each declaring an ordered
list of references.  A reference carries an identity `rid` (distinct
`Reference` objects in Python are distinct dictionary keys even when they
point at the same table) and the table it points to.
-/

/-- A declared foreign-key reference of the walker model: its object
identity and the table it targets (`Reference.table`). -/
structure Ref (n : Nat) where
  rid : Nat
  target : Fin n
deriving DecidableEq, Repr

/-- A schema for the walker model: every table's ordered list of declared
references (`TableMeta.references.values()`). -/
structure Schema (n : Nat) where
  refs : Fin n → List (Ref n)

/-- Embedding of `TableMeta.walk_refs(*seen)`: depth-first traversal of the
reference graph from table `t`.  For each reference of `t`, if its target
is already in `seen` it is skipped; otherwise the one-hop path is emitted
followed by every extension obtained by recursing into the target with the
target added to `seen`.  The top-level Python call passes no `seen`
arguments, so the starting table itself is *not* in `seen`. -/
def walkRefs (s : Schema n) (t : Fin n) (seen : List (Fin n)) :
    List (List (Ref n)) :=
  (s.refs t).flatMap fun ref =>
    if h : ref.target ∈ seen then
      []
    else
      [ref] :: (walkRefs s ref.target (ref.target :: seen)).map (ref :: ·)
termination_by n - seen.toFinset.card
decreasing_by
  have hsub : (ref.target :: seen).toFinset.card = seen.toFinset.card + 1 := by
    rw [List.toFinset_cons, Finset.card_insert_of_not_mem (by simpa using h)]
  have hle : (ref.target :: seen).toFinset.card ≤ n := by
    simpa using Finset.card_le_card (Finset.subset_univ
      ((ref.target :: seen).toFinset))
  omega

end TyDB

namespace TyDB

/-- The one-table schema whose only reference is a self-loop (table `L`
with `L.loop` pointing back at `L`). -/
def selfLoopSchema : Schema 1 :=
  ⟨fun _ => [⟨0, (0 : Fin 1)⟩]⟩

/-- The tables visited by a path starting at `t`: the start table followed
by the target of each hop. -/
def visited (t : Fin n) (p : List (Ref n)) : List (Fin n) :=
  t :: p.map (·.target)

/-- Predicate: `p` is a chain of declared references starting at table `t`: each hop
is one of the current table's declared references. -/
def isChain (s : Schema n) : Fin n → List (Ref n) → Bool
  | _, [] => true
  | t, r :: rest => r ∈ s.refs t && isChain s r.target rest

/-- C1: a table whose reference list is exactly one self-loop produces
exactly the single one-hop path, independently of the rest of the schema:
the walk terminates at depth 1 because the second hop would revisit the
(now seen) table. -/
theorem walkRefs_self_loop (s : Schema n) (t : Fin n) (r : Ref n)
    (hrefs : s.refs t = [r]) (hloop : r.target = t) :
    walkRefs s t [] = [[r]] := by
  rw [walkRefs, hrefs]
  simp only [List.flatMap_cons, List.flatMap_nil, List.append_nil]
  rw [dif_neg (by simp)]
  rw [hloop, walkRefs, hrefs]
  simp [hloop]

/-- C1 witness: the concrete one-table self-loop schema. -/
theorem walkRefs_self_loop_witness :
    walkRefs selfLoopSchema 0 [] = [[⟨0, (0 : Fin 1)⟩]] :=
  walkRefs_self_loop selfLoopSchema 0 ⟨0, (0 : Fin 1)⟩ rfl rfl

/-- Full characterization of the walker's output: a path is returned from
`walk_refs(t, *seen)` iff it is a nonempty chain of declared references
from `t` whose hop targets are pairwise distinct and all avoid `seen`.
Note the starting table `t` itself is constrained only through `seen`;
the top-level call passes an empty `seen`, so returned paths may hop back
to the starting table. -/
theorem mem_walkRefs (s : Schema n) (t : Fin n) (seen : List (Fin n)) :
    ∀ p : List (Ref n),
      p ∈ walkRefs s t seen ↔
        p ≠ [] ∧ isChain s t p = true ∧ (p.map (·.target)).Nodup ∧
          ∀ x ∈ p.map (·.target), x ∉ seen := by
  induction t, seen using walkRefs.induct with
  | s => exact s
  | case1 t seen ih =>
    intro p
    rw [walkRefs]
    simp only [List.mem_flatMap]
    constructor
    · rintro ⟨r, hr, hp⟩
      by_cases h : r.target ∈ seen
      · rw [dif_pos h] at hp
        cases hp
      · rw [dif_neg h] at hp
        rcases List.mem_cons.mp hp with rfl | hp
        · refine ⟨by simp, by simp [isChain, hr], by simp, by simpa using h⟩
        · obtain ⟨q, hq, rfl⟩ := List.mem_map.mp hp
          obtain ⟨-, hqchain, hqnodup, hqseen⟩ := (ih r h q).mp hq
          refine ⟨by simp, by simp [isChain, hr, hqchain], ?_, ?_⟩
          · refine List.nodup_cons.mpr ⟨fun hx => ?_, hqnodup⟩
            exact hqseen r.target hx (List.mem_cons_self _ _)
          · rintro x hx
            rcases List.mem_cons.mp hx with rfl | hx
            · exact h
            · exact fun hs => hqseen x hx (List.mem_cons_of_mem _ hs)
    · rintro ⟨hne, hchain, hnodup, hseen⟩
      match p with
      | r :: q =>
        simp only [isChain, Bool.and_eq_true, decide_eq_true_eq] at hchain
        obtain ⟨hr, hqchain⟩ := hchain
        simp only [List.map_cons, List.nodup_cons] at hnodup
        obtain ⟨hrq, hqnodup⟩ := hnodup
        have hrt : r.target ∉ seen := hseen r.target (by simp)
        refine ⟨r, hr, ?_⟩
        rw [dif_neg hrt]
        match q with
        | [] => exact List.mem_cons_self _ _
        | q₀ :: q' =>
          refine List.mem_cons_of_mem _ (List.mem_map.mpr ⟨q₀ :: q', ?_, rfl⟩)
          refine (ih r hrt _).mpr ⟨by simp, hqchain, hqnodup, ?_⟩
          rintro x hx
          rw [List.mem_cons]
          rintro (rfl | hs)
          · exact hrq hx
          · exact hseen x (List.mem_cons_of_mem _ hx) hs

/-- The two-table mutually-recursive schema: table `0` references table
`1` and table `1` references table `0` (the `Forth`/`Back` pair of the
repository's own tests). -/
def mutualSchema : Schema 2 :=
  ⟨fun t => if t = 0 then [⟨0, (1 : Fin 2)⟩] else [⟨1, (0 : Fin 2)⟩]⟩

/-- C2 counterexample: on the mutually-recursive schema, the walk from
table `0` returns the path `0 → 1 → 0`, which visits the starting table
twice (it is a cycle back to the start), because the starting table is
never added to the `seen` set.  So "each returned path visits no table
twice" / "every returned path is acyclic" is false as stated. -/
theorem walkRefs_revisits_start :
    [⟨0, (1 : Fin 2)⟩, ⟨1, (0 : Fin 2)⟩] ∈ walkRefs mutualSchema 0 [] ∧
      ¬ (visited 0 [⟨0, (1 : Fin 2)⟩, ⟨1, (0 : Fin 2)⟩]).Nodup := by
  constructor
  · rw [mem_walkRefs]
    refine ⟨by simp, by decide, by decide, by simp⟩
  · decide

/-- C2 amended: a path is returned from `walk_refs(T)` iff it is a
nonempty chain of declared references from `T` whose *entered* tables
(the hop targets) are pairwise distinct; the starting table itself is not
counted as entered, so a returned path may re-enter the starting table
once. -/
theorem walkRefs_characterization (s : Schema n) (t : Fin n)
    (p : List (Ref n)) :
    p ∈ walkRefs s t [] ↔
      p ≠ [] ∧ isChain s t p = true ∧ (p.map (·.target)).Nodup := by
  rw [mem_walkRefs]
  simp

/-! ## Decimal rendering of numbers

Python's `"{}".format(n)` renders a non-negative integer as its decimal
digits.  The join-path aliaser builds alias names this way; to reason
about alias collisions we need this rendering and its injectivity. -/

/-- Big-endian decimal digits of `n`, with explicit fuel (the fuel is
always sufficient, as each division by 10 strictly decreases). -/
def decDigitsAux : Nat → Nat → List Char
  | 0, _ => []
  | _ + 1, 0 => []
  | fuel + 1, n + 1 =>
    decDigitsAux fuel ((n + 1) / 10) ++ [Nat.digitChar ((n + 1) % 10)]

/-- Decimal rendering of a natural number, as Python's `"{}".format`. -/
def formatNat (n : Nat) : List Char :=
  if n = 0 then ['0'] else decDigitsAux n n

/-- Left-to-right decimal parser, used only to invert `formatNat`. -/
def parseDec (acc : Nat) : List Char → Nat
  | [] => acc
  | c :: cs => parseDec (acc * 10 + (c.toNat - 48)) cs

theorem parseDec_nil (acc : Nat) : parseDec acc [] = acc := rfl

theorem parseDec_cons (acc : Nat) (c : Char) (cs : List Char) :
    parseDec acc (c :: cs) = parseDec (acc * 10 + (c.toNat - 48)) cs := rfl

theorem parseDec_append (acc : Nat) (xs ys : List Char) :
    parseDec acc (xs ++ ys) = parseDec (parseDec acc xs) ys := by
  induction xs generalizing acc with
  | nil => rfl
  | cons c cs ih =>
    rw [List.cons_append, parseDec_cons, parseDec_cons, ih]

theorem digitChar_toNat (d : Nat) (h : d < 10) :
    (Nat.digitChar d).toNat = 48 + d := by
  interval_cases d <;> decide

theorem digitChar_ne_underscore (d : Nat) (h : d < 10) :
    Nat.digitChar d ≠ '_' := by
  interval_cases d <;> decide

theorem parseDec_decDigitsAux (fuel : Nat) :
    ∀ n acc, n ≤ fuel →
      parseDec acc (decDigitsAux fuel n) =
        acc * 10 ^ (decDigitsAux fuel n).length + n := by
  induction fuel with
  | zero =>
    intro n acc hn
    interval_cases n
    simp [decDigitsAux, parseDec_nil]
  | succ fuel ih =>
    intro n acc hn
    match n with
    | 0 => simp [decDigitsAux, parseDec_nil]
    | m + 1 =>
      have hdiv : (m + 1) / 10 ≤ fuel := by
        have := Nat.div_lt_self (Nat.succ_pos m) (by norm_num : 1 < 10)
        omega
      rw [decDigitsAux, parseDec_append, ih _ _ hdiv]
      have hmod : (m + 1) % 10 < 10 := Nat.mod_lt _ (by norm_num)
      have hchar : (Nat.digitChar ((m + 1) % 10)).toNat = 48 + (m + 1) % 10 :=
        digitChar_toNat _ hmod
      rw [parseDec_cons, parseDec_nil]
      simp only [List.length_append, List.length_cons, List.length_nil, hchar]
      rw [pow_succ, ← mul_assoc]
      have hdm := Nat.div_add_mod (m + 1) 10
      omega

theorem parseDec_formatNat (n : Nat) : parseDec 0 (formatNat n) = n := by
  unfold formatNat
  split
  · subst n
    rfl
  · rw [parseDec_decDigitsAux n n 0 (le_refl n)]
    simp

theorem formatNat_injective : Function.Injective formatNat := by
  intro a b hab
  have := parseDec_formatNat a
  rw [hab, parseDec_formatNat] at this
  omega

theorem underscore_not_mem_decDigitsAux (fuel : Nat) :
    ∀ n, '_' ∉ decDigitsAux fuel n := by
  induction fuel with
  | zero => intro n; simp [decDigitsAux]
  | succ fuel ih =>
    intro n
    match n with
    | 0 => simp [decDigitsAux]
    | m + 1 =>
      rw [decDigitsAux]
      intro hmem
      rcases List.mem_append.mp hmem with h | h
      · exact ih _ h
      · have hmod : (m + 1) % 10 < 10 := Nat.mod_lt _ (by norm_num)
        have := digitChar_ne_underscore _ hmod
        simp at h
        exact this h.symm

theorem underscore_not_mem_formatNat (n : Nat) : '_' ∉ formatNat n := by
  unfold formatNat
  split
  · decide
  · exact underscore_not_mem_decDigitsAux n n

/-- A list with a distinguished separator character splits uniquely when
neither left part contains the separator. -/
theorem append_sep_inj {as as' bs bs' : List Char}
    (ha : '_' ∉ as) (ha' : '_' ∉ as')
    (h : as ++ '_' :: bs = as' ++ '_' :: bs') : as = as' ∧ bs = bs' := by
  induction as generalizing as' with
  | nil =>
    match as' with
    | [] => simpa using h
    | c :: rest =>
      simp only [List.nil_append, List.cons_append, List.cons.injEq] at h
      exact absurd (List.mem_cons.mpr (Or.inl h.1)) ha'
  | cons c cs ih =>
    match as' with
    | [] =>
      simp only [List.cons_append, List.nil_append, List.cons.injEq] at h
      exact absurd (List.mem_cons.mpr (Or.inl h.1.symm)) ha
    | c' :: rest =>
      simp only [List.cons_append, List.cons.injEq] at h
      obtain ⟨rfl, h2⟩ := h
      have := ih (fun hm => ha (List.mem_cons_of_mem _ hm))
        (fun hm => ha' (List.mem_cons_of_mem _ hm)) h2
      exact ⟨by rw [this.1], this.2⟩

/-! ## Join-path aliasing (`TableMeta.join_refs`, models.py lines 106-129)

References are modelled with the data `join_refs` reads off them:
`ref.field.name` (the foreign-key column on the owning table),
`ref.table.meta.name` (the target table's SQL name) and
`ref.field.foreign.name` (the referenced column on the target table —
`Reference.__init__` guarantees `field.foreign` is set but does *not*
require it to be the target's primary key).  `rid` models Python object
identity: distinct `Reference` objects are distinct dictionary keys. -/

/-- A reference as consumed by `join_refs`. -/
structure RefJ where
  rid : Nat
  ownerTable : String
  fieldName : String
  targetTable : String
  targetField : String
deriving DecidableEq, Repr

/-- A join path: an ordered tuple of references. -/
abbrev PathJ := List RefJ

/-- The rendered alias `"_{}_{}".format(k, name)`. -/
def aliasChars (k : Nat) (name : String) : List Char :=
  '_' :: (formatNat k ++ '_' :: name.data)

theorem aliasChars_inj {k k' : Nat} {name name' : String}
    (h : aliasChars k name = aliasChars k' name') : k = k' ∧ name = name' := by
  unfold aliasChars at h
  have h2 := List.cons.inj h
  obtain ⟨fk, hn⟩ := append_sep_inj (underscore_not_mem_formatNat k)
    (underscore_not_mem_formatNat k') h2.2
  exact ⟨formatNat_injective fk,
    by cases name; cases name'; exact congrArg String.mk hn⟩

/-- The join condition `pk_parent[ref.field.name] == pk_foreign[ref.field.foreign.name]`:
a column of the parent table/alias equated with a column of the new alias. -/
structure JoinCond where
  leftTable : List Char
  leftCol : String
  rightTable : List Char
  rightCol : String
deriving DecidableEq, Repr

/-- One element of `join_refs`' result: `(path, aliased table, join condition)`. -/
structure JoinSpecJ where
  path : PathJ
  tblAlias : List Char
  cond : JoinCond
deriving DecidableEq, Repr

/-- The state threaded through `join_refs`' loops: the `aliases` dict
(insertion-ordered, keyed by path) and the `joins` output list. -/
structure JoinState where
  aliases : List (PathJ × List Char)
  joins : List JoinSpecJ
deriving DecidableEq, Repr

/-- Lookup in the `aliases` dict (`aliases.get(path)` / `aliases[path]`). -/
def findAlias : List (PathJ × List Char) → PathJ → Option (List Char)
  | [], _ => none
  | (p, a) :: rest, q => if p = q then some a else findAlias rest q

/-- The `if not pk_foreign:` block of `join_refs`: register a fresh alias
`"_{}_{}".format(len(aliases) + 1, ref.table.meta.name)` for
`path = done ++ [ref]` and emit the join `(path, alias, condition)`.  The
condition's parent side (`pk_parent`) is the base table for the first hop
(`pos == 0`) and the alias of `path[:-1]` otherwise. -/
def insertJoin (base : String) (st : JoinState) (done : PathJ)
    (ref : RefJ) : JoinState :=
  ⟨st.aliases ++ [(done ++ [ref],
      aliasChars (st.aliases.length + 1) ref.targetTable)],
    st.joins ++ [⟨done ++ [ref],
      aliasChars (st.aliases.length + 1) ref.targetTable,
      ⟨(match done with
        | [] => base.data
        | _ => (findAlias st.aliases done).getD []),
        ref.fieldName,
        aliasChars (st.aliases.length + 1) ref.targetTable,
        ref.targetField⟩⟩]⟩

/-- Embedding of the inner loop of `join_refs` (`for pos, ref in
enumerate(spec)`): `done` is the prefix `spec[:pos]` already processed,
and `path = spec[:pos+1] = done ++ [ref]`.  A path already in the
`aliases` dict produces nothing; a new path is registered via
`insertJoin`. -/
def joinStep (base : String) (st : JoinState) (done : PathJ) :
    PathJ → JoinState
  | [] => st
  | ref :: rest =>
    match findAlias st.aliases (done ++ [ref]) with
    | some _ => joinStep base st (done ++ [ref]) rest
    | none => joinStep base (insertJoin base st done ref) (done ++ [ref]) rest

/-- Embedding of the outer loop of `join_refs`: each spec is a path (a
lone reference arrives as a one-element tuple); `spec[0]` on an empty
tuple raises `IndexError`, and `assert spec[0].owner is self.table`
raises `AssertionError` for a path not starting on the base table. -/
def joinRefsGo (base : String) (st : JoinState) :
    List PathJ → Except String (List JoinSpecJ)
  | [] => .ok st.joins
  | spec :: rest =>
    match spec with
    | [] => .error "IndexError"
    | r :: _ =>
      if r.ownerTable = base then
        joinRefsGo base (joinStep base st [] spec) rest
      else
        .error "AssertionError"

/-- Embedding of `TableMeta.join_refs(*specs)`. -/
def joinRefs (base : String) (specs : List PathJ) :
    Except String (List JoinSpecJ) :=
  joinRefsGo base ⟨[], []⟩ specs

/-- Predicate: `p` is a nonempty initial segment of `q`. -/
def isInit (p q : PathJ) : Prop := p ≠ [] ∧ ∃ tail, p ++ tail = q

theorem findAlias_some_mem {l : List (PathJ × List Char)} {q : PathJ}
    {a : List Char} (h : findAlias l q = some a) : (q, a) ∈ l := by
  induction l with
  | nil => cases h
  | cons pa rest ih =>
    obtain ⟨p', a'⟩ := pa
    rw [findAlias] at h
    split at h
    · cases h
      simp_all
    · exact List.mem_cons_of_mem _ (ih h)

theorem findAlias_none_not_mem {l : List (PathJ × List Char)} {q : PathJ}
    (h : findAlias l q = none) : ∀ a, (q, a) ∉ l := by
  induction l with
  | nil => simp
  | cons pa rest ih =>
    obtain ⟨p', a'⟩ := pa
    rw [findAlias] at h
    split at h
    · cases h
    · intro a hm
      rcases List.mem_cons.mp hm with heq | hm
      · rename_i hne
        exact hne (by cases heq; rfl)
      · exact ih h a hm

theorem findAlias_append_of_none {l l' : List (PathJ × List Char)}
    {q : PathJ} (h : findAlias l q = none) :
    findAlias (l ++ l') q = findAlias l' q := by
  induction l with
  | nil => rfl
  | cons pa rest ih =>
    obtain ⟨p', a'⟩ := pa
    rw [findAlias] at h
    rw [List.cons_append, findAlias]
    split at h
    · cases h
    · rename_i hne
      rw [if_neg hne]
      exact ih h

/-- The invariant maintained by `join_refs`' loops, also serving as the
statement of what the emitted joins look like. -/
structure JoinInv (base : String) (st : JoinState) : Prop where
  sync : st.aliases = st.joins.map (fun j => (j.path, j.tblAlias))
  nodupPaths : (st.joins.map (·.path)).Nodup
  aliasAt : ∀ (k : Nat) (j : JoinSpecJ), st.joins[k]? = some j →
    ∃ r, j.path.getLast? = some r ∧
      j.tblAlias = aliasChars (k + 1) r.targetTable
  conds : ∀ j ∈ st.joins, ∃ r, j.path.getLast? = some r ∧
    j.cond.leftCol = r.fieldName ∧
    j.cond.rightTable = j.tblAlias ∧
    j.cond.rightCol = r.targetField ∧
    ((j.path = [r] ∧ j.cond.leftTable = base.data) ∨
      (∃ j' ∈ st.joins, j'.path = j.path.dropLast ∧
        j.cond.leftTable = j'.tblAlias))

theorem JoinInv.pathsEq {base : String} {st : JoinState}
    (h : JoinInv base st) :
    st.aliases.map Prod.fst = st.joins.map (·.path) := by
  rw [h.sync, List.map_map]
  rfl

theorem joinStep_nil (base : String) (st : JoinState) (done : PathJ) :
    joinStep base st done [] = st := rfl

theorem joinStep_cons (base : String) (st : JoinState) (done : PathJ)
    (ref : RefJ) (rest : PathJ) :
    joinStep base st done (ref :: rest) =
      match findAlias st.aliases (done ++ [ref]) with
      | some _ => joinStep base st (done ++ [ref]) rest
      | none =>
        joinStep base (insertJoin base st done ref) (done ++ [ref]) rest :=
  rfl

theorem insertJoin_aliases (base : String) (st : JoinState) (done : PathJ)
    (ref : RefJ) :
    (insertJoin base st done ref).aliases =
      st.aliases ++ [(done ++ [ref],
        aliasChars (st.aliases.length + 1) ref.targetTable)] := rfl

theorem insertJoin_joins (base : String) (st : JoinState) (done : PathJ)
    (ref : RefJ) :
    (insertJoin base st done ref).joins =
      st.joins ++ [⟨done ++ [ref],
        aliasChars (st.aliases.length + 1) ref.targetTable,
        ⟨(match done with
          | [] => base.data
          | _ => (findAlias st.aliases done).getD []),
          ref.fieldName,
          aliasChars (st.aliases.length + 1) ref.targetTable,
          ref.targetField⟩⟩] := rfl

/-- Registering a genuinely new path preserves the aliasing invariant. -/
theorem insertJoin_inv (base : String) (st : JoinState) (done : PathJ)
    (ref : RefJ) (hinv : JoinInv base st)
    (hdone : done = [] ∨ ∃ a, findAlias st.aliases done = some a)
    (hfa : findAlias st.aliases (done ++ [ref]) = none) :
    JoinInv base (insertJoin base st done ref) := by
  have hlen : st.aliases.length = st.joins.length := by
    rw [hinv.sync, List.length_map]
  have hnotmem : done ++ [ref] ∉ st.joins.map (·.path) := by
    rw [← hinv.pathsEq]
    intro hmem
    obtain ⟨⟨p', a'⟩, hm, hp⟩ := List.mem_map.mp hmem
    cases hp
    exact findAlias_none_not_mem hfa a' hm
  refine ⟨?_, ?_, ?_, ?_⟩
  · rw [insertJoin_aliases, insertJoin_joins, List.map_append, ← hinv.sync]
    rfl
  · rw [insertJoin_joins, List.map_append]
    refine List.Nodup.append hinv.nodupPaths (List.nodup_singleton _) ?_
    intro a ha hb
    rw [List.map_cons, List.map_nil, List.mem_singleton] at hb
    subst hb
    exact hnotmem ha
  · intro k j hkj
    rw [insertJoin_joins] at hkj
    by_cases hk : k < st.joins.length
    · rw [List.getElem?_append_left hk] at hkj
      exact hinv.aliasAt k j hkj
    · rw [List.getElem?_append_right (le_of_not_lt hk)] at hkj
      match hm : k - st.joins.length, hkj with
      | 0, hkj =>
        have hkeq : k = st.joins.length := by omega
        rw [List.getElem?_cons_zero, Option.some.injEq] at hkj
        subst hkj
        refine ⟨ref, List.getLast?_concat _, ?_⟩
        rw [hkeq, hlen]
      | m + 1, hkj =>
        rw [List.getElem?_cons_succ] at hkj
        simp at hkj
  · intro j hj
    rw [insertJoin_joins] at hj
    rcases List.mem_append.mp hj with hj | hj
    · obtain ⟨r, h1, h2, h3, h4, h5⟩ := hinv.conds j hj
      refine ⟨r, h1, h2, h3, h4, ?_⟩
      rcases h5 with h5 | ⟨j', hj', h6, h7⟩
      · exact Or.inl h5
      · refine Or.inr ⟨j', ?_, h6, h7⟩
        rw [insertJoin_joins]
        exact List.mem_append_left _ hj'
    · rw [List.mem_singleton] at hj
      subst hj
      refine ⟨ref, List.getLast?_concat _, rfl, rfl, rfl, ?_⟩
      cases done with
      | nil => exact Or.inl ⟨rfl, rfl⟩
      | cons d ds =>
        rcases hdone with h | ⟨a, ha⟩
        · cases h
        · have hmem : (d :: ds, a) ∈ st.aliases := findAlias_some_mem ha
          rw [hinv.sync] at hmem
          obtain ⟨j', hj', he⟩ := List.mem_map.mp hmem
          refine Or.inr ⟨j', ?_, ?_, ?_⟩
          · rw [insertJoin_joins]
            exact List.mem_append_left _ hj'
          · show j'.path = ((d :: ds) ++ [ref]).dropLast
            rw [List.dropLast_concat]
            exact congrArg Prod.fst he
          · show (match (d :: ds : PathJ) with
              | [] => base.data
              | _ => (findAlias st.aliases (d :: ds)).getD []) = j'.tblAlias
            rw [ha]
            exact (congrArg Prod.snd he).symm

/-- Behaviour of one full inner-loop pass of `join_refs` over the
remaining hops `rest` of a spec: the invariant is preserved, joins are
only appended, and the emitted paths grow by exactly the nonempty
extensions of `done` along `rest`. -/
theorem joinStep_spec (base : String) (rest : PathJ) :
    ∀ (st : JoinState) (done : PathJ),
      JoinInv base st →
      (done = [] ∨ (∃ a, findAlias st.aliases done = some a)) →
      JoinInv base (joinStep base st done rest) ∧
      (∃ tail, (joinStep base st done rest).joins = st.joins ++ tail) ∧
      (∀ p, p ∈ (joinStep base st done rest).joins.map (·.path) ↔
        p ∈ st.joins.map (·.path) ∨ ∃ q, isInit q rest ∧ p = done ++ q) := by
  induction rest with
  | nil =>
    intro st done hinv _
    rw [joinStep_nil]
    refine ⟨hinv, ⟨[], by simp⟩, fun p => ?_⟩
    simp only [isInit]
    constructor
    · exact fun h => Or.inl h
    · rintro (h | ⟨q, ⟨hq, t, ht⟩, rfl⟩)
      · exact h
      · exact absurd (List.append_eq_nil.mp ht).1 hq
  | cons ref rest' ih =>
    intro st done hinv hdone
    rw [joinStep_cons]
    cases hfa : findAlias st.aliases (done ++ [ref]) with
    | some a =>
      have hpath_mem : done ++ [ref] ∈ st.joins.map (·.path) := by
        have := findAlias_some_mem hfa
        rw [← hinv.pathsEq]
        exact List.mem_map.mpr ⟨_, this, rfl⟩
      obtain ⟨hinv', ⟨tail, htail⟩, hmem⟩ :=
        ih st (done ++ [ref]) hinv (Or.inr ⟨a, hfa⟩)
      refine ⟨hinv', ⟨tail, htail⟩, fun p => ?_⟩
      rw [hmem]
      constructor
      · rintro (h | ⟨q', ⟨hq', t, ht⟩, rfl⟩)
        · exact Or.inl h
        · exact Or.inr ⟨ref :: q', ⟨by simp, t, by simp [ht]⟩, by simp⟩
      · rintro (h | ⟨q, ⟨hq, t, ht⟩, rfl⟩)
        · exact Or.inl h
        · cases q with
          | nil => exact absurd rfl hq
          | cons r₀ q' =>
            rw [List.cons_append, List.cons.injEq] at ht
            obtain ⟨rfl, ht⟩ := ht
            cases q' with
            | nil => exact Or.inl (by simpa using hpath_mem)
            | cons q₀ q'' =>
              exact Or.inr ⟨q₀ :: q'', ⟨by simp, t, ht⟩, by simp⟩
    | none =>
      have hinv' : JoinInv base (insertJoin base st done ref) :=
        insertJoin_inv base st done ref hinv hdone hfa
      have hfa' : findAlias (insertJoin base st done ref).aliases
          (done ++ [ref]) = some
            (aliasChars (st.aliases.length + 1) ref.targetTable) := by
        rw [insertJoin_aliases, findAlias_append_of_none hfa, findAlias,
          if_pos rfl]
      obtain ⟨hinv'', ⟨tail, htail⟩, hmem⟩ :=
        ih (insertJoin base st done ref) (done ++ [ref]) hinv'
          (Or.inr ⟨_, hfa'⟩)
      rw [insertJoin_joins] at htail
      refine ⟨hinv'', ⟨_, by rw [htail, List.append_assoc]⟩, fun p => ?_⟩
      rw [hmem]
      have hins : ∀ p, p ∈ (insertJoin base st done ref).joins.map (·.path) ↔
          p ∈ st.joins.map (·.path) ∨ p = done ++ [ref] := by
        intro p
        rw [insertJoin_joins, List.map_append, List.mem_append]
        simp only [List.map_cons, List.map_nil, List.mem_singleton]
      rw [hins]
      constructor
      · rintro ((h | rfl) | ⟨q', ⟨hq', t, ht⟩, rfl⟩)
        · exact Or.inl h
        · exact Or.inr ⟨[ref], ⟨by simp, rest', by simp⟩, rfl⟩
        · exact Or.inr ⟨ref :: q', ⟨by simp, t, by simp [ht]⟩, by simp⟩
      · rintro (h | ⟨q, ⟨hq, t, ht⟩, rfl⟩)
        · exact Or.inl (Or.inl h)
        · cases q with
          | nil => exact absurd rfl hq
          | cons r₀ q' =>
            rw [List.cons_append, List.cons.injEq] at ht
            obtain ⟨rfl, ht⟩ := ht
            cases q' with
            | nil => exact Or.inl (Or.inr rfl)
            | cons q₀ q'' =>
              exact Or.inr ⟨q₀ :: q'', ⟨by simp, t, ht⟩, by simp⟩

theorem joinRefsGo_nil (base : String) (st : JoinState) :
    joinRefsGo base st [] = .ok st.joins := rfl

theorem joinRefsGo_cons (base : String) (st : JoinState) (r : RefJ)
    (rest₀ : PathJ) (rest : List PathJ) :
    joinRefsGo base st ((r :: rest₀) :: rest) =
      if r.ownerTable = base then
        joinRefsGo base (joinStep base st [] (r :: rest₀)) rest
      else
        .error "AssertionError" := rfl

/-- Behaviour of the outer loop of `join_refs` over the remaining specs,
starting from an arbitrary invariant-satisfying state. -/
theorem joinRefsGo_spec (base : String) :
    ∀ (specs : List PathJ) (st : JoinState),
      JoinInv base st →
      (∀ spec ∈ specs, ∃ r rest, spec = r :: rest ∧ r.ownerTable = base) →
      ∃ stf : JoinState, joinRefsGo base st specs = .ok stf.joins ∧
        JoinInv base stf ∧
        (∀ p, p ∈ stf.joins.map (·.path) ↔
          p ∈ st.joins.map (·.path) ∨ ∃ spec ∈ specs, isInit p spec) := by
  intro specs
  induction specs with
  | nil =>
    intro st hinv _
    exact ⟨st, rfl, hinv, fun p => by simp⟩
  | cons spec rest ih =>
    intro st hinv hw
    obtain ⟨r, rest₀, rfl, hro⟩ := hw spec (List.mem_cons_self _ _)
    rw [joinRefsGo_cons, if_pos hro]
    obtain ⟨hinv', -, hmem⟩ :=
      joinStep_spec base (r :: rest₀) st [] hinv (Or.inl rfl)
    obtain ⟨stf, hgo, hinvf, hmemf⟩ :=
      ih (joinStep base st [] (r :: rest₀)) hinv'
        (fun s hs => hw s (List.mem_cons_of_mem _ hs))
    refine ⟨stf, hgo, hinvf, fun p => ?_⟩
    rw [hmemf, hmem p]
    constructor
    · rintro ((h | ⟨q, hq, rfl⟩) | ⟨s, hs, hp⟩)
      · exact Or.inl h
      · exact Or.inr ⟨r :: rest₀, List.mem_cons_self _ _, by simpa using hq⟩
      · exact Or.inr ⟨s, List.mem_cons_of_mem _ hs, hp⟩
    · rintro (h | ⟨s, hs, hp⟩)
      · exact Or.inl (Or.inl h)
      · rcases List.mem_cons.mp hs with rfl | hs
        · exact Or.inl (Or.inr ⟨p, by simpa using hp, by simp⟩)
        · exact Or.inr ⟨s, hs, hp⟩

/-- Distinct emitted joins carry distinct alias names: ordinals are
assigned in first-encountered order, and the rendered alias string
determines its ordinal. -/
theorem aliases_nodup {base : String} {st : JoinState}
    (hinv : JoinInv base st) : (st.joins.map (·.tblAlias)).Nodup := by
  rw [List.nodup_iff_getElem?_ne_getElem?]
  intro i j hij hj hEq
  have hj' : j < st.joins.length := by simpa using hj
  have hi' : i < st.joins.length := lt_trans hij hj'
  rw [List.getElem?_map, List.getElem?_map, List.getElem?_eq_getElem hi',
    List.getElem?_eq_getElem hj'] at hEq
  simp only [Option.map_some', Option.some.injEq] at hEq
  obtain ⟨ri, -, hri⟩ := hinv.aliasAt i _ (List.getElem?_eq_getElem hi')
  obtain ⟨rj, -, hrj⟩ := hinv.aliasAt j _ (List.getElem?_eq_getElem hj')
  rw [hri, hrj] at hEq
  have := (aliasChars_inj hEq).1
  omega

theorem joinInv_empty (base : String) : JoinInv base ⟨[], []⟩ := by
  refine ⟨rfl, List.nodup_nil, ?_, ?_⟩
  · intro k j hkj
    simp at hkj
  · intro j hj
    simp at hj

/-- C5 amended: for specs that all start on the base table, `join_refs`
succeeds and emits exactly one join per unique nonempty path prefix of
the requested specs; target-table aliases are assigned in
first-encountered order as `_{ordinal}_{target_table_name}`; two distinct
paths never share an alias (even when the same target table is reached
via two different foreign keys); and each join condition equates the
parent alias's (or, for the first hop, the base table's) foreign-key
column to the target alias's *referenced* column (`ref.field.foreign`) —
which is the target's primary key only when the foreign key points at the
primary key. -/
theorem joinRefs_correct (base : String) (specs : List PathJ)
    (hw : ∀ spec ∈ specs, ∃ r rest, spec = r :: rest ∧ r.ownerTable = base) :
    ∃ joins, joinRefs base specs = Except.ok joins ∧
      (joins.map (·.path)).Nodup ∧
      (∀ p, p ∈ joins.map (·.path) ↔ ∃ spec ∈ specs, isInit p spec) ∧
      (∀ (k : Nat) (j : JoinSpecJ), joins[k]? = some j →
        ∃ r, j.path.getLast? = some r ∧
          j.tblAlias = aliasChars (k + 1) r.targetTable) ∧
      (joins.map (·.tblAlias)).Nodup ∧
      (∀ j ∈ joins, ∃ r, j.path.getLast? = some r ∧
        j.cond.leftCol = r.fieldName ∧
        j.cond.rightTable = j.tblAlias ∧
        j.cond.rightCol = r.targetField ∧
        ((j.path = [r] ∧ j.cond.leftTable = base.data) ∨
          (∃ j' ∈ joins, j'.path = j.path.dropLast ∧
            j.cond.leftTable = j'.tblAlias))) := by
  obtain ⟨stf, hgo, hinvf, hmemf⟩ :=
    joinRefsGo_spec base specs ⟨[], []⟩ (joinInv_empty base) hw
  refine ⟨stf.joins, hgo, hinvf.nodupPaths, fun p => ?_, hinvf.aliasAt,
    aliases_nodup hinvf, hinvf.conds⟩
  rw [hmemf]
  simp

/-- The two foreign keys of the `Outer` test table, both targeting the
`mid` table (mirroring the repository's `test_ref_join`). -/
def refMid1 : RefJ := ⟨0, "outer", "mid_1_key", "mid", "key"⟩

/-- Second foreign key from `outer` to `mid`. -/
def refMid2 : RefJ := ⟨1, "outer", "mid_2_key", "mid", "key"⟩

/-- C5 witness: both hypotheses and conclusion hold at the concrete
two-foreign-keys-to-one-table input. -/
theorem joinRefs_correct_witness :
    (∀ spec ∈ [[refMid2], [refMid1]], ∃ r rest,
      spec = r :: rest ∧ r.ownerTable = "outer") ∧
    (∃ joins, joinRefs "outer" [[refMid2], [refMid1]] = Except.ok joins ∧
      (joins.map (·.path)).Nodup ∧
      (∀ p, p ∈ joins.map (·.path) ↔
        ∃ spec ∈ [[refMid2], [refMid1]], isInit p spec) ∧
      (∀ (k : Nat) (j : JoinSpecJ), joins[k]? = some j →
        ∃ r, j.path.getLast? = some r ∧
          j.tblAlias = aliasChars (k + 1) r.targetTable) ∧
      (joins.map (·.tblAlias)).Nodup ∧
      (∀ j ∈ joins, ∃ r, j.path.getLast? = some r ∧
        j.cond.leftCol = r.fieldName ∧
        j.cond.rightTable = j.tblAlias ∧
        j.cond.rightCol = r.targetField ∧
        ((j.path = [r] ∧ j.cond.leftTable = "outer".data) ∨
          (∃ j' ∈ joins, j'.path = j.path.dropLast ∧
            j.cond.leftTable = j'.tblAlias)))) :=
  ⟨by
    intro spec hs
    fin_cases hs
    · exact ⟨refMid2, [], rfl, rfl⟩
    · exact ⟨refMid1, [], rfl, rfl⟩,
  joinRefs_correct "outer" [[refMid2], [refMid1]] (by
    intro spec hs
    fin_cases hs
    · exact ⟨refMid2, [], rfl, rfl⟩
    · exact ⟨refMid1, [], rfl, rfl⟩)⟩

/-- The resolved primary key of the `customers` table in the C5
counterexample schema. -/
def customersPrimaryKey : String := "id"

/-- A foreign key `orders.customer_code` referencing the *non-primary*
column `customers.code` (the `Reference` constructor only requires the
field to be foreign to the target table, never that it reference the
primary key). -/
def ordersCustomerRef : RefJ := ⟨0, "orders", "customer_code", "customers", "code"⟩

/-- C5 counterexample: the join condition emitted for a foreign key that
references a non-primary column equates the foreign-key column with the
*referenced* column (`code`), not with the target table's primary-key
column (`id`) — so "each join condition equates ... to the target alias's
primary-key column" is false as stated. -/
theorem joinRefs_uses_referenced_column :
    joinRefs "orders" [[ordersCustomerRef]] =
      Except.ok [⟨[ordersCustomerRef], "_1_customers".data,
        ⟨"orders".data, "customer_code", "_1_customers".data, "code"⟩⟩] ∧
      "code" ≠ customersPrimaryKey := by
  constructor
  · rfl
  · decide

/-! ## Expression algebra (`Expr.__init__` / `Field.encode`,
models.py lines 308-317 and 328-343)

Operands of an `Expr` are Fields, prebuilt pypika terms (opaque here),
strings, numeric/boolean/None literals, sequences (for `IN`), or nested
expressions.  The float field kind is omitted from the embedding
(floating point); `DateTimeField` overrides `encode` and is likewise out
of scope of this claim. -/

/-- The `data_type` attribute of a field class (`None` for the base
`Field`). -/
inductive DataType where
  | dtNone
  | dtInt
  | dtBool
  | dtStr
deriving DecidableEq, Repr

/-- A column descriptor as `Expr` construction sees it: its identity, its
`data_type`, and whether it is one of the `Nullable` field classes. -/
structure FieldD where
  fid : Nat
  dataType : DataType
  nullable : Bool
deriving DecidableEq, Repr

/-- Operator tags of the expression algebra. -/
inductive OpTag where
  | eq | ne | lt | le | gt | ge | neg | isin | like | ilike
  | isnull | isnotnull | andOp | orOp | invert
deriving DecidableEq, Repr

/-- An operand of an `Expr`.  `term` stands for a prebuilt
`pypika.terms.Term`; `subexpr` is a nested `Expr`. -/
inductive Operand where
  | field (f : FieldD)
  | term (t : String)
  | strLit (s : String)
  | intLit (n : Int)
  | boolLit (b : Bool)
  | noneLit
  | seq (items : List Operand)
  | subexpr (op : OpTag) (args : List Operand)

/-- A constructed `Expr`: operator plus stored operands. -/
structure ExprD where
  op : OpTag
  args : List Operand

/-- Model of Python `int(str)`: an optional sign followed by decimal
digits (Python's extra niceties such as surrounding whitespace or digit
group underscores are not modelled; no claim depends on them). -/
def pyParseInt (s : String) : Option Int :=
  let digits : List Char → Option Nat := fun cs =>
    if cs.isEmpty then none
    else if cs.all (·.isDigit) then some (parseDec 0 cs) else none
  match s.data with
  | '-' :: cs => (digits cs).map (fun n => -(n : Int))
  | '+' :: cs => (digits cs).map (fun n => (n : Int))
  | cs => (digits cs).map (fun n => (n : Int))

/-- Python `int(x)`: `none` models the `TypeError`/`ValueError` raised on
inconvertible values. -/
def pyInt : Operand → Option Int
  | .intLit n => some n
  | .boolLit b => some (if b then 1 else 0)
  | .strLit s => pyParseInt s
  | _ => none

/-- Python `bool(x)` (total). -/
def pyBool : Operand → Bool
  | .boolLit b => b
  | .intLit n => n != 0
  | .strLit s => s != ""
  | .noneLit => false
  | .seq items => !items.isEmpty
  | _ => true

/-- Python `str(x)`.  Descriptor/expression/sequence operands render via
their `repr`; those renderings are modelled by fixed tag strings since no
claim depends on their exact text. -/
def pyStr : Operand → String
  | .strLit s => s
  | .intLit n =>
    if n < 0 then ⟨'-' :: formatNat n.natAbs⟩ else ⟨formatNat n.natAbs⟩
  | .boolLit b => if b then "True" else "False"
  | .noneLit => "None"
  | .field _ => "<Field>"
  | .term t => t
  | .seq _ => "<seq>"
  | .subexpr _ _ => "<Expr>"

/-- Embedding of `Field.encode` (with the `Nullable` override): a pypika
node passes through unchanged; a null on a nullable field encodes to
null; otherwise `int`/`bool` data types convert the value and every other
data type falls back to `str(value)`. -/
def FieldD.encode (f : FieldD) (v : Operand) : Option Operand :=
  match v with
  | .noneLit =>
    if f.nullable then some .noneLit
    else
      match f.dataType with
      | .dtInt => (pyInt .noneLit).map .intLit
      | .dtBool => some (.boolLit (pyBool .noneLit))
      | _ => some (.strLit (pyStr .noneLit))
  | .term t => some (.term t)
  | v =>
    match f.dataType with
    | .dtInt => (pyInt v).map .intLit
    | .dtBool => some (.boolLit (pyBool v))
    | _ => some (.strLit (pyStr v))

/-- Test for `isinstance(arg, Field)`. -/
def isFieldOp : Operand → Bool
  | .field _ => true
  | _ => false

/-- One operand's treatment inside `Expr.__init__` when exactly one Field
participates: `isinstance(arg, (Field, pypika.terms.Term, str))` operands
are appended unchanged, sequences are encoded element-wise, everything
else goes through `field.encode`. -/
def encodeArg (f : FieldD) : Operand → Option Operand
  | .field g => some (.field g)
  | .term t => some (.term t)
  | .strLit s => some (.strLit s)
  | .seq items => (items.mapM f.encode).map .seq
  | v => f.encode v

/-- Embedding of `Expr.__init__(op, *args)`: when exactly one operand is
a `Field`, the operands are passed through `encodeArg` for that field;
otherwise they are stored as given. -/
def exprInit (op : OpTag) (args : List Operand) : Option ExprD :=
  match args.filter isFieldOp with
  | [.field f] => (args.mapM (encodeArg f)).map (ExprD.mk op)
  | _ => some (ExprD.mk op args)

theorem mapM_option_getElem? {α β : Type} (f : α → Option β) :
    ∀ (l : List α) (l' : List β), l.mapM f = some l' →
      l'.length = l.length ∧ ∀ k : Nat, l'[k]? = (l[k]?).bind f := by
  intro l
  induction l with
  | nil =>
    intro l' h
    rw [List.mapM_nil] at h
    cases h
    exact ⟨rfl, fun k => by simp⟩
  | cons a as ih =>
    intro l' h
    rw [List.mapM_cons] at h
    cases hfa : f a with
    | none => rw [hfa] at h; simp at h
    | some b =>
      rw [hfa] at h
      cases hmas : as.mapM f with
      | none => rw [hmas] at h; simp at h
      | some bs =>
        rw [hmas] at h
        simp at h
        subst h
        obtain ⟨hlen, hget⟩ := ih bs hmas
        refine ⟨by simp [hlen], fun k => ?_⟩
        match k with
        | 0 => simpa using hfa.symm
        | k + 1 => simpa using hget k

/-- C4 amended: when `Expr.__init__` sees exactly one `Field` among its
operands and succeeds, every Field, prebuilt-SQL-term and *string*
operand is stored unchanged, every sequence operand is encoded
element-wise through the field's encode, and every other operand is
replaced by its encoding through the field's encode; with zero or more
than one Field operand, the operands are stored exactly as given. -/
theorem exprInit_encodes (op : OpTag) (args : List Operand) :
    (∀ f, args.filter isFieldOp = [.field f] →
      ∀ e, exprInit op args = some e →
        e.op = op ∧ e.args.length = args.length ∧
        ∀ (k : Nat) (a : Operand), args[k]? = some a →
          (((∃ g, a = .field g) ∨ (∃ t, a = .term t) ∨
              (∃ s, a = .strLit s)) →
            e.args[k]? = some a) ∧
          (∀ items, a = .seq items →
            e.args[k]? = (items.mapM (FieldD.encode f)).map Operand.seq) ∧
          ((∀ g, a ≠ .field g) → (∀ t, a ≠ .term t) →
            (∀ s, a ≠ .strLit s) → (∀ items, a ≠ .seq items) →
            e.args[k]? = FieldD.encode f a)) ∧
    ((args.filter isFieldOp).length ≠ 1 →
      exprInit op args = some (ExprD.mk op args)) := by
  constructor
  · intro f hfl e he
    rw [exprInit, hfl] at he
    change Option.map (ExprD.mk op) (args.mapM (encodeArg f)) = some e at he
    obtain ⟨stored, hmapM, rfl⟩ : ∃ stored,
        args.mapM (encodeArg f) = some stored ∧ e = ExprD.mk op stored := by
      cases hm : args.mapM (encodeArg f) with
      | none =>
        rw [hm] at he
        cases he
      | some stored =>
        rw [hm] at he
        simp only [Option.map_some', Option.some.injEq] at he
        exact ⟨stored, rfl, he.symm⟩
    obtain ⟨hlen, hget⟩ := mapM_option_getElem? (encodeArg f) args stored hmapM
    refine ⟨rfl, hlen, fun k a hka => ?_⟩
    have hk : stored[k]? = encodeArg f a := by
      rw [hget k, hka]
      exact Option.some_bind a (encodeArg f)
    refine ⟨?_, ?_, ?_⟩
    · rintro (⟨g, rfl⟩ | ⟨t, rfl⟩ | ⟨s, rfl⟩) <;> exact hk
    · rintro items rfl
      exact hk
    · intro h1 h2 h3 h4
      rw [hk]
      match a, h1, h2, h3, h4 with
      | .intLit n, _, _, _, _ => rfl
      | .boolLit b, _, _, _, _ => rfl
      | .noneLit, _, _, _, _ => rfl
      | .subexpr o as, _, _, _, _ => rfl
      | .field g, h1, _, _, _ => exact absurd rfl (h1 g)
      | .term t, _, h2, _, _ => exact absurd rfl (h2 t)
      | .strLit s, _, _, h3, _ => exact absurd rfl (h3 s)
      | .seq items, _, _, _, h4 => exact absurd rfl (h4 items)
  · intro hne
    rw [exprInit]
    split
    · rename_i g heq
      rw [heq] at hne
      simp at hne
    · rfl

/-- An integer field (`IntField`, `data_type = int`, not nullable) used
in the expression examples. -/
def intFieldEx : FieldD := ⟨0, .dtInt, false⟩

/-- C4 witness: applying the encoding theorem at the concrete expression
`intField == 3` shows the literal operand is stored as its encoding. -/
theorem exprInit_encodes_witness :
    ([Operand.field intFieldEx, Operand.intLit 3].filter isFieldOp
      = [.field intFieldEx]) ∧
    exprInit .eq [.field intFieldEx, .intLit 3] =
      some ⟨.eq, [.field intFieldEx, .intLit 3]⟩ ∧
    (ExprD.mk .eq [.field intFieldEx, .intLit 3]).args[1]? =
      FieldD.encode intFieldEx (.intLit 3) :=
  ⟨rfl, rfl, by
    have h := (exprInit_encodes .eq [.field intFieldEx, .intLit 3]).1
      intFieldEx rfl ⟨.eq, [.field intFieldEx, .intLit 3]⟩ rfl
    exact (h.2.2 1 (.intLit 3) rfl).2.2
      (fun g hg => by cases hg) (fun t ht => by cases ht)
      (fun s hs => by cases hs) (fun items hi => by cases hi)⟩

/-- C4 counterexample: with exactly one Field (an `IntField`) among the
operands, a *string* operand is stored unchanged — it is caught by the
`isinstance(arg, (Field, pypika.terms.Term, str))` pass-through — even
though encoding it through the field would produce the different value
`int("5") = 5`.  So "every operand that is not a Field and not an Expr is
encoded through that field's encode function" is false as stated. -/
theorem exprInit_str_passthrough :
    exprInit .eq [.field intFieldEx, .strLit "5"] =
      some ⟨.eq, [.field intFieldEx, .strLit "5"]⟩ ∧
    FieldD.encode intFieldEx (.strLit "5") = some (.intLit 5) ∧
    Operand.strLit "5" ≠ Operand.intLit 5 :=
  ⟨rfl, rfl, fun h => by cases h⟩

/-! ## Instance equality (`Table.__eq__`, models.py lines 177-184)

A runtime row is modelled by its class identity plus its `__dict__` of
decoded field values (fresh from `Table.__init__`: one entry per declared
field, in declaration order). -/

/-- A decoded field value, for instance comparison purposes. -/
inductive PyVal where
  | vint (n : Int)
  | vstr (s : String)
  | vbool (b : Bool)
  | vnone
deriving DecidableEq, Repr

/-- Per-class metadata relevant to `__eq__`: the resolved primary key
attribute name, if any (`TableMeta.primary`), and the class's method
resolution order — the class itself followed by its base classes — which
is what `isinstance(other, self.__class__)` consults (table inheritance
is supported by `TableMeta` and used by the repository's tests, e.g.
`IntNullModel(_NullModelBase)`). -/
structure ClassInfo where
  primary : Option String
  mro : List Nat
deriving DecidableEq, Repr

/-- A runtime instance: its class (identified by a class id, with a
metadata lookup) and its `__dict__` of field values. -/
structure InstanceR where
  cls : Nat
  fields : List (String × PyVal)
deriving DecidableEq, Repr

/-- Embedding of `getattr(inst, name)` for a declared field: `__dict__` lookup. -/
def InstanceR.attr (i : InstanceR) (name : String) : Option PyVal :=
  (i.fields.find? (fun kv => kv.fst = name)).map Prod.snd

/-- Embedding of `Table.__eq__`: `isinstance(other, self.__class__)` —
the left instance's class must appear in the right value's class
ancestry (so a subclass instance may be compared, but an unrelated class
is never equal); with a resolved primary key only the primary attribute
values are compared; without one the whole `__dict__` is compared. -/
def tableEq (meta : Nat → ClassInfo) (a b : InstanceR) : Bool :=
  if a.cls ∉ (meta b.cls).mro then
    false
  else
    match (meta a.cls).primary with
    | some pk => a.attr pk == b.attr pk
    | none => a.fields == b.fields

/-- The inheritance pair of the repository's field tests:
class `0` is `_NullModelBase` (primary `id`, ancestry `[0]`) and class
`1` is its subclass `IntNullModel` (inherited primary `id`, ancestry
`[1, 0]`). -/
def metaInherit : Nat → ClassInfo := fun c =>
  if c = 0 then ⟨some "id", [0]⟩ else ⟨some "id", [1, 0]⟩

/-- C9 counterexample: under `isinstance` semantics a base-class
instance equals a subclass instance with the same primary key —
`_NullModelBase(id=1) == IntNullModel(id=1, field=None)` is `True` in
the source even though the classes differ — so "an instance never equals
a value of a different class" is false as stated. -/
theorem tableEq_cross_class :
    tableEq metaInherit ⟨0, [("id", .vint 1)]⟩
      ⟨1, [("id", .vint 1), ("field", .vnone)]⟩ = true ∧
    (⟨0, [("id", .vint 1)]⟩ : InstanceR).cls ≠
      (⟨1, [("id", .vint 1), ("field", .vnone)]⟩ : InstanceR).cls :=
  ⟨by decide, by decide⟩

/-- C9 amended: instance equality compares only primary-key values when
the instance's class has one (equal keys make equal instances even when
every other field differs, including a base-class instance against a
subclass instance); compares all fields when there is no primary key;
and an instance never equals a value whose class ancestry does not
contain the instance's class (`isinstance(other, self.__class__)`), so
equality across unrelated classes is always false. -/
theorem tableEq_spec (meta : Nat → ClassInfo) (a b : InstanceR) :
    (a.cls ∉ (meta b.cls).mro → tableEq meta a b = false) ∧
    (∀ pk, a.cls ∈ (meta b.cls).mro → (meta a.cls).primary = some pk →
      (tableEq meta a b = true ↔ a.attr pk = b.attr pk)) ∧
    (a.cls ∈ (meta b.cls).mro → (meta a.cls).primary = none →
      (tableEq meta a b = true ↔ a.fields = b.fields)) := by
  refine ⟨fun h => ?_, fun pk hc hp => ?_, fun hc hp => ?_⟩
  · rw [tableEq, if_pos h]
  · rw [tableEq, if_neg (not_not_intro hc), hp]
    simp
  · rw [tableEq, if_neg (not_not_intro hc), hp]
    simp

/-- Class metadata for the C9 witness: class `0` has primary key `id`,
every other class has no primary key; no inheritance. -/
def metaEx : Nat → ClassInfo :=
  fun c => if c = 0 then ⟨some "id", [0]⟩ else ⟨none, [c]⟩

/-- C9 witness: two instances of a primary-keyed class with equal keys
but different `text` fields are equal; the same rows under a class with
no primary key are unequal; and instances of unrelated classes are never
equal. -/
theorem tableEq_spec_witness :
    tableEq metaEx ⟨0, [("id", .vint 1), ("text", .vnone)]⟩
      ⟨0, [("id", .vint 1), ("text", .vstr "Text")]⟩ = true ∧
    tableEq metaEx ⟨1, [("id", .vint 1), ("text", .vnone)]⟩
      ⟨1, [("id", .vint 1), ("text", .vstr "Text")]⟩ = false ∧
    tableEq metaEx ⟨0, [("id", .vint 1)]⟩ ⟨1, [("id", .vint 1)]⟩ = false := by
  refine ⟨?_, ?_, ?_⟩
  · exact ((tableEq_spec metaEx ⟨0, [("id", .vint 1), ("text", .vnone)]⟩
      ⟨0, [("id", .vint 1), ("text", .vstr "Text")]⟩).2.1 "id" (by decide)
        rfl).mpr (by decide)
  · have h := (tableEq_spec metaEx ⟨1, [("id", .vint 1), ("text", .vnone)]⟩
      ⟨1, [("id", .vint 1), ("text", .vstr "Text")]⟩).2.2 (by decide) rfl
    rw [Bool.eq_false_iff]
    intro htb
    exact absurd (h.mp htb) (by decide)
  · exact (tableEq_spec metaEx ⟨0, [("id", .vint 1)]⟩
      ⟨1, [("id", .vint 1)]⟩).1 (by decide)

/-! ## Result materializer (`_SelectQueryResult._unpack` / `._transform`,
queries.py lines 183-217, with `Table.__init__`, models.py lines 164-175)

Rows are flat lists of `PyVal` (`vnone` is SQL null).  A table carries
its ordered fields (name, data type, nullability, default policy) and
its ordered references (reference attribute name, foreign-key field
name, index of the target table). -/

/-- A field's default policy (`Default` enum or a literal value). -/
inductive DefaultP where
  | dnone
  | dserver
  | dnow
  | dval (v : PyVal)
deriving DecidableEq, Repr

/-- A column as the materializer sees it. -/
structure FieldM where
  name : String
  dataType : DataType
  nullable : Bool
  default : DefaultP
deriving DecidableEq, Repr

/-- A reference as the materializer sees it: the reference attribute
name, its foreign-key field's attribute name, and the target table. -/
structure RefM where
  name : String
  fieldName : String
  target : Nat
deriving DecidableEq, Repr

/-- A table schema for the materializer. -/
structure TableM where
  fields : List FieldM
  refs : List RefM
deriving DecidableEq, Repr

/-- Python exceptions the materializer can raise. -/
inductive PyErr where
  | typeError
  | keyError (name : String)
  | attributeError
deriving DecidableEq, Repr

/-- Python `int(x)` on a decoded value. -/
def pyValInt : PyVal → Option Int
  | .vint n => some n
  | .vbool b => some (if b then 1 else 0)
  | .vstr s => pyParseInt s
  | .vnone => none

/-- Python `bool(x)` on a decoded value. -/
def pyValBool : PyVal → Bool
  | .vbool b => b
  | .vint n => n != 0
  | .vstr s => s != ""
  | .vnone => false

/-- Python `str(x)` on a decoded value. -/
def pyValStr : PyVal → String
  | .vstr s => s
  | .vint n =>
    if n < 0 then ⟨'-' :: formatNat n.natAbs⟩ else ⟨formatNat n.natAbs⟩
  | .vbool b => if b then "True" else "False"
  | .vnone => "None"

/-- Embedding of `Field.decode` with the `Nullable` override: a null on a
nullable field decodes to null, otherwise the value is converted through
the field's `data_type` (`int(None)` raises `TypeError`; note that
`bool(None)` is `False` and `str(None)` is `"None"`). -/
def decodeVal (f : FieldM) (v : PyVal) : Except PyErr PyVal :=
  if f.nullable ∧ v = .vnone then
    .ok .vnone
  else
    match f.dataType with
    | .dtNone => .ok v
    | .dtInt =>
      match pyValInt v with
      | some n => .ok (.vint n)
      | none => .error .typeError
    | .dtBool => .ok (.vbool (pyValBool v))
    | .dtStr => .ok (.vstr (pyValStr v))

/-- Embedding of the field loop of `Table.__init__` with
`data = dict(zip(fields, row))`: fields beyond the row's length are
missing from `data` and fall back to their default (`KeyError` for the
`NONE`/`SERVER` policies, the current timestamp for `TIMESTAMP_NOW`, the
literal otherwise); every value is stored decoded. -/
def instFields (now : PyVal) :
    List FieldM → List PyVal → Except PyErr (List (String × PyVal))
  | [], _ => .ok []
  | f :: fs, [] => do
    let v ←
      match f.default with
      | .dnone => .error (.keyError f.name)
      | .dserver => .error (.keyError f.name)
      | .dnow => decodeVal f now
      | .dval d => decodeVal f d
    let rest ← instFields now fs []
    .ok ((f.name, v) :: rest)
  | f :: fs, v :: vs => do
    let dv ← decodeVal f v
    let rest ← instFields now fs vs
    .ok ((f.name, dv) :: rest)

/-- A materialized instance: decoded field values plus one reference
binding per declared reference (`none` = not fetched; `some none` =
resolved to absent; `some (some i)` = resolved to a nested instance). -/
inductive InstT where
  | mk (fieldVals : List (String × PyVal))
       (binds : List (String × Option (Option InstT)))

/-- The field values of an instance. -/
def InstT.fieldVals : InstT → List (String × PyVal)
  | .mk fs _ => fs

/-- The reference bindings of an instance. -/
def InstT.binds : InstT → List (String × Option (Option InstT))
  | .mk _ bs => bs

/-- The value of a reference binding, by reference attribute name. -/
def InstT.bindValue (i : InstT) (name : String) :
    Option (Option (Option InstT)) :=
  (i.binds.find? (fun kv => kv.fst = name)).map Prod.snd

/-- Embedding of `table(**data)`: build an instance; its reference bindings all start
out unfetched. -/
def instantiateT (t : TableM) (row : List PyVal) (now : PyVal) :
    Except PyErr InstT :=
  (instFields now t.fields row).map
    (fun fs => .mk fs (t.refs.map (fun r => (r.name, none))))

/-- Embedding of `_SelectQueryResult._unpack`: slice
`result[offset : offset + size]`; a non-root all-null slice yields no
instance (the outer join found no related row), otherwise the slice is
fed to the table constructor. -/
def unpack (t : TableM) (result : List PyVal) (offset : Nat)
    (now : PyVal) : Except PyErr (Option InstT × Nat) :=
  let size := t.fields.length
  let row := (result.drop offset).take size
  if offset ≠ 0 ∧ row.all (· == .vnone) then
    .ok (none, size)
  else
    (instantiateT t row now).map (fun i => (some i, size))

/-- Embedding of `getattr(target, name)` for a declared field attribute. -/
def InstT.getField (i : InstT) (name : String) : Except PyErr PyVal :=
  match i.fieldVals.find? (fun kv => kv.fst = name) with
  | some kv => .ok kv.snd
  | none => .error .attributeError

/-- The running `target` of `_transform`'s prefix walk: an instance, or a
raw field value produced by `getattr(target, ref.field.name)` (`raw
vnone` plays Python's `None`). -/
inductive PyTarget where
  | inst (i : InstT)
  | raw (v : PyVal)

/-- Embedding of `for ref in path[:-1]: target = getattr(target,
ref.field.name); if target is None: break`.  Note the walk reads the
*foreign-key field* attribute, so after one hop the target is a raw
column value, not the related instance; `getattr` on such a value raises
`AttributeError`. -/
def walkPath : PyTarget → List RefM → Except PyErr PyTarget
  | t, [] => .ok t
  | .inst i, r :: rest => do
    let v ← i.getField r.fieldName
    if v = .vnone then .ok (.raw .vnone)
    else walkPath (.raw v) rest
  | .raw _, _ :: _ => .error .attributeError

/-- Embedding of `bind = getattr(target, path[-1].name); bind.value = instance`: set
the named reference binding on an instance. -/
def attachBind (i : InstT) (name : String) (sub : Option InstT) :
    Except PyErr InstT :=
  match i with
  | .mk fs bs =>
    if (bs.find? (fun kv => kv.fst = name)).isSome then
      .ok (.mk fs (bs.map
        (fun kv => if kv.fst = name then (kv.fst, some sub) else kv)))
    else
      .error .attributeError

/-- One iteration of `_transform`'s join loop: unpack the next slice,
walk the already-materialized prefix, and attach the sub-result to the
reference binding of the walk's target (skipping when the walk hit a
null foreign key).  A walk ending on a raw non-null value makes the
final `getattr(target, path[-1].name)` raise.  (When the walk returns an
instance it is necessarily `final` itself — see `walkPath_inst` — so
attaching to the returned instance is attaching into `final`.) -/
def transformJoin (tables : List TableM) (final : InstT)
    (row : List PyVal) (pos : Nat) (path : List RefM) (now : PyVal) :
    Except PyErr (InstT × Nat) :=
  match path.getLast? with
  | none => .error .attributeError
  | some last =>
    match tables[last.target]? with
    | none => .error .attributeError
    | some t => do
      let su ← unpack t row pos now
      let tgt ← walkPath (.inst final) path.dropLast
      match tgt with
      | .raw .vnone => .ok (final, su.2)
      | .raw _ => .error .attributeError
      | .inst i => do
        let final' ← attachBind i last.name su.1
        .ok (final', su.2)

/-- The join loop of `_transform`, accumulating the row position. -/
def transformGo (tables : List TableM) (final : InstT) (row : List PyVal)
    (pos : Nat) (now : PyVal) : List (List RefM) → Except PyErr InstT
  | [] => .ok final
  | path :: more => do
    let fs ← transformJoin tables final row pos path now
    transformGo tables fs.1 row (pos + fs.2) now more

/-- Embedding of `_SelectQueryResult._transform`: unpack the root slice
at offset 0 (which always constructs — the all-null shortcut requires a
nonzero offset, so the `none` arm below is unreachable), then process
each join path in order. -/
def transform (tables : List TableM) (t : TableM)
    (joins : List (List RefM)) (row : List PyVal) (now : PyVal) :
    Except PyErr InstT := do
  let fp ← unpack t row 0 now
  match fp.1 with
  | none => .error .typeError
  | some final => transformGo tables final row fp.2 now joins

theorem exceptOk_bind {ε α β : Type} (a : α) (f : α → Except ε β) :
    (Except.ok a : Except ε α) >>= f = f a := rfl

theorem exceptOk_map {ε α β : Type} (a : α) (f : α → β) :
    (Except.ok a : Except ε α).map f = Except.ok (f a) := rfl

theorem find?_map_update (name : String) (sub : Option InstT) :
    ∀ bs : List (String × Option (Option InstT)),
      (bs.find? (fun kv => kv.fst = name)).isSome →
      ((bs.map (fun kv =>
          if kv.fst = name then (kv.fst, some sub) else kv)).find?
        (fun kv => kv.fst = name)).map Prod.snd = some (some sub) := by
  intro bs
  induction bs with
  | nil => intro h; simp [List.find?] at h
  | cons kv rest ih =>
    intro h
    by_cases hk : kv.fst = name
    · rw [List.map_cons, if_pos hk,
        List.find?_cons_of_pos _ (by simpa using hk)]
      rfl
    · rw [List.map_cons, if_neg hk,
        List.find?_cons_of_neg _ (by simpa using hk)]
      refine ih ?_
      rw [List.find?_cons_of_neg _ (by simpa using hk)] at h
      exact h

/-- C6 amended: (1) `_unpack` on a non-root slice whose values are all
null resolves to no instance, without error; (2) the root slice
(offset 0) is always fed to the instance constructor; (3) for a
*one-hop* join path whose sub-slice is all null, the join step of
`_transform` resolves the reference binding to absent (`None`) and does
not throw; (4) end to end, a row materialized with a single one-hop
join and an all-null sub-slice succeeds with the binding resolved to
absent.  The restriction to one-hop paths is forced: for a join list
with a multi-hop path the prefix-walk defect (see C3) raises
`AttributeError` even when the sub-slice is all null
(`transform_null_slice_raises`). -/
theorem unpack_null_handling :
    (∀ (t : TableM) (result : List PyVal) (offset : Nat) (now : PyVal),
      offset ≠ 0 →
      ((result.drop offset).take t.fields.length).all (· == .vnone)
        = true →
      unpack t result offset now = .ok (none, t.fields.length)) ∧
    (∀ (t : TableM) (result : List PyVal) (now : PyVal),
      unpack t result 0 now =
        (instantiateT t (result.take t.fields.length) now).map
          (fun i => (some i, t.fields.length))) ∧
    (∀ (tables : List TableM) (fvals : List (String × PyVal))
        (binds : List (String × Option (Option InstT)))
        (row : List PyVal) (pos : Nat) (r : RefM) (tt : TableM)
        (now : PyVal),
      tables[r.target]? = some tt →
      pos ≠ 0 →
      ((row.drop pos).take tt.fields.length).all (· == .vnone) = true →
      (binds.find? (fun kv => kv.fst = r.name)).isSome →
      ∃ final', transformJoin tables (.mk fvals binds) row pos [r] now =
          .ok (final', tt.fields.length) ∧
        final'.bindValue r.name = some (some none)) ∧
    (∀ (tables : List TableM) (t tt : TableM) (r : RefM)
        (row : List PyVal) (now : PyVal) (final : InstT),
      tables[r.target]? = some tt →
      r ∈ t.refs →
      t.fields.length ≠ 0 →
      instantiateT t (row.take t.fields.length) now = .ok final →
      ((row.drop t.fields.length).take tt.fields.length).all (· == .vnone)
        = true →
      ∃ final', transform tables t [[r]] row now = .ok final' ∧
        final'.bindValue r.name = some (some none)) := by
  have hpart1 : ∀ (t : TableM) (result : List PyVal) (offset : Nat)
      (now : PyVal), offset ≠ 0 →
      ((result.drop offset).take t.fields.length).all (· == .vnone)
        = true →
      unpack t result offset now = .ok (none, t.fields.length) := by
    intro t result offset now hoff hnull
    rw [unpack, if_pos ⟨hoff, hnull⟩]
  have hpart2 : ∀ (t : TableM) (result : List PyVal) (now : PyVal),
      unpack t result 0 now =
        (instantiateT t (result.take t.fields.length) now).map
          (fun i => (some i, t.fields.length)) := by
    intro t result now
    rw [unpack, if_neg (by simp), List.drop_zero]
  have hpart3 : ∀ (tables : List TableM) (fvals : List (String × PyVal))
      (binds : List (String × Option (Option InstT)))
      (row : List PyVal) (pos : Nat) (r : RefM) (tt : TableM)
      (now : PyVal),
      tables[r.target]? = some tt →
      pos ≠ 0 →
      ((row.drop pos).take tt.fields.length).all (· == .vnone) = true →
      (binds.find? (fun kv => kv.fst = r.name)).isSome →
      ∃ final', transformJoin tables (.mk fvals binds) row pos [r] now =
          .ok (final', tt.fields.length) ∧
        final'.bindValue r.name = some (some none) := by
    intro tables fvals binds row pos r tt now htt hpos hnull hbind
    rw [transformJoin]
    simp only [List.getLast?_singleton, htt]
    rw [hpart1 tt row pos now hpos hnull]
    simp only [exceptOk_bind, List.dropLast_single, walkPath]
    rw [attachBind, if_pos hbind]
    simp only [exceptOk_bind]
    refine ⟨_, rfl, ?_⟩
    rw [InstT.bindValue]
    exact find?_map_update r.name none _ hbind
  refine ⟨hpart1, hpart2, hpart3, ?_⟩
  intro tables t tt r row now final htt hr hlen hroot hnull
  obtain ⟨fs, hfs, hfinal⟩ : ∃ fs,
      instFields now t.fields (row.take t.fields.length) = .ok fs ∧
      final = .mk fs (t.refs.map (fun r => (r.name, none))) := by
    rw [instantiateT] at hroot
    cases hif : instFields now t.fields (row.take t.fields.length) with
    | error e => rw [hif] at hroot; cases hroot
    | ok fs =>
      rw [hif] at hroot
      cases hroot
      exact ⟨fs, rfl, rfl⟩
  have hbind : ((t.refs.map (fun r => (r.name, (none : Option (Option InstT))))).find?
      (fun kv => kv.fst = r.name)).isSome := by
    rw [List.find?_isSome]
    exact ⟨(r.name, none), List.mem_map.mpr ⟨r, hr, rfl⟩, by simp⟩
  rw [transform, hpart2, hroot]
  simp only [exceptOk_map, exceptOk_bind]
  rw [transformGo, transformJoin]
  simp only [List.getLast?_singleton, htt]
  rw [hpart1 tt row t.fields.length now hlen hnull]
  simp only [exceptOk_bind, List.dropLast_single, walkPath]
  rw [hfinal, attachBind]
  rw [if_pos (by simpa [InstT.binds] using hbind)]
  simp only [exceptOk_bind, transformGo]
  refine ⟨_, rfl, ?_⟩
  rw [InstT.bindValue]
  exact find?_map_update r.name none _ (by simpa [InstT.binds] using hbind)

/-- The `Inner` table of the reference tests (`key` int primary with
server default, `value` bool defaulting to false). -/
def innerC6 : TableM :=
  ⟨[⟨"key", .dtInt, false, .dserver⟩,
    ⟨"value", .dtBool, false, .dval (.vbool false)⟩], []⟩

/-- The `NullOuter` table: nullable foreign key `inner_key` with a
nullable reference `inner` to `Inner`. -/
def nullOuterC6 : TableM :=
  ⟨[⟨"key", .dtInt, false, .dserver⟩,
    ⟨"inner_key", .dtInt, true, .dnone⟩],
  [⟨"inner", "inner_key", 0⟩]⟩

/-- C6 witness: the `test_nullable_get_null` scenario — a `NullOuter` row
with a null foreign key is outer-joined, producing an all-null `Inner`
slice; materialization succeeds and resolves the `inner` binding to
absent. -/
theorem unpack_null_handling_witness :
    instantiateT nullOuterC6
      ([PyVal.vint 1, .vnone, .vnone, .vnone].take
        nullOuterC6.fields.length) .vnone =
      .ok (.mk [("key", .vint 1), ("inner_key", .vnone)]
        [("inner", none)]) ∧
    (∃ final', transform [innerC6] nullOuterC6 [[⟨"inner", "inner_key", 0⟩]]
        [PyVal.vint 1, .vnone, .vnone, .vnone] .vnone = .ok final' ∧
      final'.bindValue "inner" = some (some none)) :=
  ⟨rfl,
    unpack_null_handling.2.2.2 [innerC6] nullOuterC6 innerC6
      ⟨"inner", "inner_key", 0⟩ [PyVal.vint 1, .vnone, .vnone, .vnone]
      .vnone (.mk [("key", .vint 1), ("inner_key", .vnone)] [("inner", none)])
      rfl (by decide) (by decide) rfl (by decide)⟩

/-- The prefix walk never turns a raw column value back into an
instance. -/
theorem walkPath_raw_not_inst (l : List RefM) (v : PyVal) (i : InstT) :
    walkPath (.raw v) l ≠ .ok (.inst i) := by
  cases l with
  | nil =>
    rw [walkPath]
    intro h
    cases h
  | cons r rest =>
    rw [walkPath]
    intro h
    cases h

/-- If the prefix walk ends on an instance, the prefix was empty and the
instance is the root itself: `_transform` can only ever attach
sub-results directly to the root instance, because the walk follows the
foreign-key *field* attribute (a raw column value), not the reference
binding. -/
theorem walkPath_inst (f : InstT) (l : List RefM) (i : InstT)
    (h : walkPath (.inst f) l = .ok (.inst i)) : l = [] ∧ i = f := by
  cases l with
  | nil =>
    rw [walkPath] at h
    cases h
    exact ⟨rfl, rfl⟩
  | cons r rest =>
    rw [walkPath] at h
    cases hg : f.getField r.fieldName with
    | error e => rw [hg] at h; cases h
    | ok v =>
      rw [hg] at h
      simp only [exceptOk_bind] at h
      split at h
      · cases h
      · exact absurd h (walkPath_raw_not_inst rest v i)

/-- Witness for `walkPath_inst`: the empty walk returns the root. -/
theorem walkPath_inst_witness :
    walkPath (.inst (.mk [] [])) [] = .ok (.inst (.mk [] [])) ∧
      ([] : List RefM) = [] :=
  ⟨rfl, (walkPath_inst (.mk [] []) [] (.mk [] []) rfl).1⟩

/-- The `Inner`/`Mid`/`Outer` chain of the repository's `test_ref_walk`
schema, used to drive a two-hop join through the materializer. -/
def innerC3 : TableM := ⟨[⟨"key", .dtInt, false, .dnone⟩], []⟩

/-- Table `Mid`: a key plus a foreign key to `Inner`. -/
def midC3 : TableM :=
  ⟨[⟨"key", .dtInt, false, .dnone⟩, ⟨"inner_key", .dtInt, false, .dnone⟩],
  [⟨"inner", "inner_key", 0⟩]⟩

/-- Table `Outer`: a foreign key to `Mid`. -/
def outerC3 : TableM :=
  ⟨[⟨"mid_key", .dtInt, false, .dnone⟩], [⟨"mid", "mid_key", 1⟩]⟩

/-- C3: materializing a row of the two-level `auto_join` select
(`Outer → Mid → Inner`, all foreign keys non-null) raises
`AttributeError` instead of attaching the `Inner` sub-instance under the
materialized `Mid` instance: the prefix walk reads
`getattr(target, ref.field.name)` — the integer foreign-key value — and
then attempts `getattr(<int>, path[-1].name)`.  The spec's described
behaviour (walk the materialized parent instances and attach to the
parent's reference-binding placeholder) is the evident intent; the code
reads the wrong attribute. -/
theorem transform_two_hop_raises :
    transform [innerC3, midC3, outerC3] outerC3
      [[⟨"mid", "mid_key", 1⟩],
        [⟨"mid", "mid_key", 1⟩, ⟨"inner", "inner_key", 0⟩]]
      [.vint 1, .vint 2, .vint 3, .vint 3] .vnone =
      .error .attributeError := rfl

/-- A `Mid` variant with a *nullable* foreign key to `Inner`, so a `Mid`
row with no related `Inner` materializes (its `Inner` slice is all
null). -/
def midC6 : TableM :=
  ⟨[⟨"key", .dtInt, false, .dnone⟩, ⟨"inner_key", .dtInt, true, .dnone⟩],
  [⟨"inner", "inner_key", 0⟩]⟩

/-- C6 counterexample: in a row of the two-level `auto_join` select
(`Outer → Mid → Inner` with `Mid.inner_key` null), the non-root `Inner`
slice is all null, yet materialization raises `AttributeError` instead
of resolving the `inner` binding to absent: the two-hop path's prefix
walk reads the integer `mid_key` value and then calls
`getattr(<int>, "inner")` (the C3 defect).  So "for every materialized
SELECT row with joins ... resolves the binding to absent ... and the
operation does not throw" is false as stated for multi-hop join lists. -/
theorem transform_null_slice_raises :
    (([PyVal.vint 1, .vint 5, .vnone, .vnone].drop 3).take
        innerC3.fields.length).all (· == .vnone) = true ∧
    transform [innerC3, midC6, outerC3] outerC3
      [[⟨"mid", "mid_key", 1⟩],
        [⟨"mid", "mid_key", 1⟩, ⟨"inner", "inner_key", 0⟩]]
      [.vint 1, .vint 5, .vnone, .vnone] .vnone =
      .error .attributeError :=
  ⟨by decide, rfl⟩

/-! ## Single-row lookups (`_Session._get_one` / `Session.get` /
`Session.first`, session.py lines 78-84 and 255-271)

A `SELECT` against the database is modelled by the ordered list of
matching rows truncated to the query's `LIMIT`. -/

/-- Embedding of `SELECT ... [LIMIT k]`: the rows matching the predicate, in order,
truncated to the limit. -/
def runSelect {α : Type} (rows : List α) (pred : α → Bool)
    (limit : Option Nat) : List α :=
  match limit with
  | some k => (rows.filter pred).take k
  | none => rows.filter pred

/-- Embedding of `_Session._get_one`: zero results and more than one
result raise `LookupError`. -/
def getOne {α : Type} (results : List α) : Except String α :=
  match results with
  | [] => .error "Expected one record but none found"
  | [x] => .ok x
  | _ :: _ :: _ => .error "Expected one result but multiple found"

/-- Embedding of `Session.get`: a `SELECT ... LIMIT 2` followed by
`_get_one`. -/
def sessionGet {α : Type} (rows : List α) (pred : α → Bool) :
    Except String α :=
  getOne (runSelect rows pred (some 2))

/-- Embedding of `Session.first`: a `SELECT ... LIMIT 1` followed by
`next(results, None)`. -/
def sessionFirst {α : Type} (rows : List α) (pred : α → Bool) : Option α :=
  (runSelect rows pred (some 1)).head?

/-- C7: `get` errors when zero rows match and when more than one row
matches, and returns the unique match otherwise; `first` returns the
first match or absent when none match. -/
theorem get_first_spec {α : Type} (rows : List α) (pred : α → Bool) :
    ((rows.filter pred).length = 0 → ∃ e, sessionGet rows pred = .error e) ∧
    (1 < (rows.filter pred).length → ∃ e, sessionGet rows pred = .error e) ∧
    (∀ x, rows.filter pred = [x] → sessionGet rows pred = .ok x) ∧
    sessionFirst rows pred = (rows.filter pred).head? := by
  refine ⟨?_, ?_, ?_, ?_⟩
  · intro h
    rw [List.length_eq_zero] at h
    rw [sessionGet, runSelect, h]
    exact ⟨_, rfl⟩
  · intro h
    rw [sessionGet, runSelect]
    match hm : rows.filter pred, h with
    | x :: y :: rest, _ => exact ⟨_, rfl⟩
    | [x], h => simp at h
    | [], h => simp at h
  · intro x h
    rw [sessionGet, runSelect, h]
    rfl
  · rw [sessionFirst, runSelect]
    cases rows.filter pred <;> rfl

/-- C7 witness: the `Model` rows of the repository's query tests — `get`
errors on zero and on two matches, returns the unique match, and `first`
returns the head match or absent. -/
theorem get_first_spec_witness :
    ([(1, "a"), (2, "b")].filter (fun r => r.fst = 3)).length = 0 ∧
    (∃ e, sessionGet [(1, "a"), (2, "b")] (fun r => r.fst = 3)
      = .error e) ∧
    1 < ([(1, "a"), (2, "b")].filter (fun _ => true)).length ∧
    (∃ e, sessionGet [(1, "a"), (2, "b")] (fun _ => true) = .error e) ∧
    [(1, "a"), (2, "b")].filter (fun r => r.fst = 2) = [(2, "b")] ∧
    sessionGet [(1, "a"), (2, "b")] (fun r => r.fst = 2) = .ok (2, "b") ∧
    sessionFirst [(1, "a"), (2, "b")] (fun _ => true) = some (1, "a") :=
  ⟨by decide,
    (get_first_spec [(1, "a"), (2, "b")] (fun r => r.fst = 3)).1 (by decide),
    by decide,
    (get_first_spec [(1, "a"), (2, "b")] (fun _ => true)).2.1 (by decide),
    by decide,
    (get_first_spec [(1, "a"), (2, "b")] (fun r => r.fst = 2)).2.2.1
      (2, "b") (by decide),
    by
      rw [(get_first_spec [(1, "a"), (2, "b")] (fun _ => true)).2.2.2]
      decide⟩

/-! ## Row creation (`_Session._create_value` / `._bulk_create_fields`,
session.py lines 139-188, with `_SQLiteQueryBuilder._values_sql`,
dialects.py lines 62-71)

`serverDefault : Bool` records whether the active dialect has a
server-default token (`dialect.server_default`); SQLite has none. -/

/-- A column as row creation sees it: name, nullability, default policy,
and the referenced field name if the column is a foreign key. -/
structure FieldC where
  name : String
  nullable : Bool
  default : DefaultP
  foreign : Option String
deriving DecidableEq, Repr

/-- A caller-supplied value for one column: nothing, a plain value, or a
table instance (whose referenced field is extracted). -/
inductive CreateIn where
  | noneV
  | val (v : PyVal)
  | inst (fields : List (String × PyVal))
deriving DecidableEq, Repr

/-- The value headed for the INSERT: a plain value or the dialect's
server-default token. -/
inductive COut where
  | val (v : PyVal)
  | serverTok
deriving DecidableEq, Repr

/-- Exceptions of the creation pipeline.  `omitValue` is the internal
`_OmitValue` signal; `bulkCantOmit` is the
`RuntimeError("Can't omit values during bulk insert")` usage error. -/
inductive CreateErr where
  | keyError (name : String)
  | omitValue
  | assertError
  | attributeError
  | bulkCantOmit
deriving DecidableEq, Repr

/-- Embedding of `_Session._create_value`: a missing value on a
non-nullable column falls back to its default policy (`KeyError` when
the policy demands a value, the server-default token when the dialect
has one, `_OmitValue` otherwise, the timestamp or the literal default
else); a table instance resolves to its referenced field's value. -/
def createValue (f : FieldC) (v : CreateIn) (serverDefault : Bool)
    (now : PyVal) : Except CreateErr COut :=
  match v with
  | .noneV =>
    if f.nullable then
      .ok (.val .vnone)
    else
      match f.default with
      | .dnone => .error (.keyError f.name)
      | .dserver =>
        if serverDefault then .ok .serverTok else .error .omitValue
      | .dnow => .ok (.val now)
      | .dval d => .ok (.val d)
  | .val x => .ok (.val x)
  | .inst m =>
    match f.foreign with
    | none => .error .assertError
    | some fn =>
      match m.find? (fun kv => kv.fst = fn) with
      | some kv => .ok (.val kv.snd)
      | none => .error .attributeError

/-- One cell of `_bulk_create_fields`' row loop: `_OmitValue` is turned
into the hard `RuntimeError`, anything else passes through. -/
def bulkCell (serverDefault : Bool) (now : PyVal)
    (fv : FieldC × CreateIn) : Except CreateErr COut :=
  match createValue fv.1 fv.2 serverDefault now with
  | .error .omitValue => .error .bulkCantOmit
  | .error e => .error e
  | .ok x => .ok x

/-- One row of `_bulk_create_fields` (`for field, value in
zip(fields, data)`). -/
def bulkCreateRow (fields : List FieldC) (data : List CreateIn)
    (serverDefault : Bool) (now : PyVal) :
    Except CreateErr (List COut) :=
  (fields.zip data).mapM (bulkCell serverDefault now)

/-- Embedding of `_Session._bulk_create_fields` over all rows. -/
def bulkCreateFields (fields : List FieldC) (rows : List (List CreateIn))
    (serverDefault : Bool) (now : PyVal) :
    Except CreateErr (List (List COut)) :=
  rows.mapM (fun data => bulkCreateRow fields data serverDefault now)

theorem exceptError_bind {ε α β : Type} (e : ε) (f : α → Except ε β) :
    (Except.error e : Except ε α) >>= f = .error e := rfl

theorem mapM_except_ok_of_all {ε α β : Type} (f : α → Except ε β) :
    ∀ l : List α, (∀ x ∈ l, ∃ y, f x = .ok y) →
      ∃ ys, l.mapM f = .ok ys := by
  intro l
  induction l with
  | nil => exact fun _ => ⟨[], rfl⟩
  | cons a as ih =>
    intro h
    obtain ⟨y, hy⟩ := h a (List.mem_cons_self _ _)
    obtain ⟨ys, hys⟩ := ih (fun x hx => h x (List.mem_cons_of_mem _ hx))
    refine ⟨y :: ys, ?_⟩
    rw [List.mapM_cons, hy, exceptOk_bind, hys, exceptOk_bind]
    rfl

theorem mapM_except_append_error {ε α β : Type} (f : α → Except ε β)
    (e : ε) : ∀ (l rest : List α), (∀ x ∈ l, ∃ y, f x = .ok y) →
      rest.mapM f = .error e → (l ++ rest).mapM f = .error e := by
  intro l
  induction l with
  | nil => exact fun rest _ h => h
  | cons a as ih =>
    intro rest h hrest
    obtain ⟨y, hy⟩ := h a (List.mem_cons_self _ _)
    rw [List.cons_append, List.mapM_cons, hy, exceptOk_bind,
      ih rest (fun x hx => h x (List.mem_cons_of_mem _ hx)) hrest]
    rfl

/-- C8: when the active dialect has no server-default token, a missing
value for a non-nullable server-default column makes `_create_value`
raise `_OmitValue`, and `_bulk_create_fields` turns that into the hard
`RuntimeError` usage error (the column is never omitted and no per-row
fallback is inferred), provided everything processed before that cell
succeeded. -/
theorem bulkCreate_hard_error (f : FieldC) (now : PyVal)
    (hnn : f.nullable = false) (hsd : f.default = .dserver) :
    createValue f .noneV false now = .error .omitValue ∧
    ∀ (fields : List FieldC) (rpre rpost : List (List CreateIn))
      (row : List CreateIn) (cpre cpost : List (FieldC × CreateIn)),
      fields.zip row = cpre ++ (f, .noneV) :: cpost →
      (∀ r ∈ rpre, ∃ outs, bulkCreateRow fields r false now = .ok outs) →
      (∀ c ∈ cpre, ∃ out, bulkCell false now c = .ok out) →
      bulkCreateFields fields (rpre ++ row :: rpost) false now =
        .error .bulkCantOmit := by
  have hcv : createValue f .noneV false now = .error .omitValue := by
    rw [createValue, if_neg (by simp [hnn]), hsd]
    rfl
  refine ⟨hcv, ?_⟩
  intro fields rpre rpost row cpre cpost hzip hrows hcells
  have hrow : bulkCreateRow fields row false now = .error .bulkCantOmit := by
    rw [bulkCreateRow, hzip]
    refine mapM_except_append_error _ _ cpre _ hcells ?_
    rw [List.mapM_cons]
    have : bulkCell false now (f, .noneV) = .error .bulkCantOmit := by
      rw [bulkCell, hcv]
    rw [this, exceptError_bind]
  rw [bulkCreateFields]
  refine mapM_except_append_error _ _ rpre _ hrows ?_
  rw [List.mapM_cons, hrow, exceptError_bind]

/-- The `Model` table of the repository's query tests: an integer
primary key with server default plus a nullable text column. -/
def modelIdField : FieldC := ⟨"id", false, .dserver, none⟩

/-- The nullable `text` column of `Model`. -/
def modelTextField : FieldC := ⟨"text", true, .dnone, none⟩

/-- C8 witness: `bulk_create(Model, ["id", "text"], (None, None),
(None, "Text"))` on the SQLite dialect (no server-default token) is a
hard usage error — the first row's `id` cell cannot be expressed. -/
theorem bulkCreate_hard_error_witness :
    modelIdField.nullable = false ∧ modelIdField.default = .dserver ∧
    bulkCreateFields [modelIdField, modelTextField]
      [[.noneV, .noneV], [.noneV, .val (.vstr "Text")]] false .vnone =
      .error .bulkCantOmit :=
  ⟨rfl, rfl,
    (bulkCreate_hard_error modelIdField .vnone rfl rfl).2
      [modelIdField, modelTextField] [] [[.noneV, .val (.vstr "Text")]]
      [.noneV, .noneV] [] [(modelTextField, .noneV)] rfl
      (by intro r hr; cases hr) (by intro c hc; cases hc)⟩

/-! ## Reference loading (`Session.load` / `AsyncSession.load`,
session.py lines 278-287 and 375-386)

Both implementations first try `return bind.value` and only on
`AttributeError` (value not yet set) build the `SELECT ... LIMIT 1`
query, acquire a cursor and execute it; the shared embedding below
covers both.  The session/connection state is the number of cursors
acquired and the log of queries run; the database itself is the opaque
`runQuery` function. -/

/-- The query `load` would build: the referenced table, the predicate
`ref.field.foreign == getattr(bind.inst, ref.field.name)`, `LIMIT 1`. -/
structure SelectRepr where
  table : Nat
  fkValue : PyVal
  limit : Nat
deriving DecidableEq, Repr

/-- Observable session/connection state. -/
structure SessLog where
  cursorsAcquired : Nat
  queriesRun : List SelectRepr
deriving DecidableEq, Repr

/-- A `BoundReference` as `load` sees it: the referenced table, whether
the reference is nullable, the foreign-key value on the owning instance,
and the resolved value (`none` = not fetched). -/
structure BindL where
  refTable : Nat
  nullable : Bool
  fkValue : PyVal
  value : Option (Option InstanceR)
deriving DecidableEq, Repr

/-- The lookup error of `_load_one`. -/
inductive LoadErr where
  | lookupError
deriving DecidableEq, Repr

/-- Embedding of `Session.load` (and `AsyncSession.load`): return the
cached value if the binding is already resolved; otherwise run the
`SELECT ... LIMIT 1`, cache and return the first result, or return
absent (nullable) / raise `LookupError` (non-nullable) on no result. -/
def sessionLoad (runQuery : SelectRepr → List InstanceR) (log : SessLog)
    (bind : BindL) : Except LoadErr (Option InstanceR) × SessLog × BindL :=
  match bind.value with
  | some v => (.ok v, log, bind)
  | none =>
    let q : SelectRepr := ⟨bind.refTable, bind.fkValue, 1⟩
    let log' : SessLog :=
      ⟨log.cursorsAcquired + 1, log.queriesRun ++ [q]⟩
    match runQuery q with
    | r :: _ =>
      (.ok (some r), log',
        ⟨bind.refTable, bind.nullable, bind.fkValue, some (some r)⟩)
    | [] =>
      if bind.nullable then (.ok none, log', bind)
      else (.error .lookupError, log', bind)

/-- C10: on a binding whose value is already resolved, `load` returns the
cached value and leaves the session state (cursors acquired, queries
run) and the binding itself untouched — no cursor is acquired and no
query is executed. -/
theorem load_cached_is_noop (runQuery : SelectRepr → List InstanceR)
    (log : SessLog) (bind : BindL) (v : Option InstanceR)
    (h : bind.value = some v) :
    sessionLoad runQuery log bind = (.ok v, log, bind) := by
  rw [sessionLoad, h]

/-- C10 witness: a resolved binding (and also one resolved to absent) is
returned as-is with zero new cursors or queries. -/
theorem load_cached_is_noop_witness :
    (BindL.mk 0 false (.vint 1) (some (some ⟨0, [("id", .vint 1)]⟩))).value
      = some (some ⟨0, [("id", .vint 1)]⟩) ∧
    sessionLoad (fun _ => []) ⟨0, []⟩
      ⟨0, false, .vint 1, some (some ⟨0, [("id", .vint 1)]⟩)⟩ =
      (.ok (some ⟨0, [("id", .vint 1)]⟩), ⟨0, []⟩,
        ⟨0, false, .vint 1, some (some ⟨0, [("id", .vint 1)]⟩)⟩) :=
  ⟨rfl,
    load_cached_is_noop (fun _ => []) ⟨0, []⟩
      ⟨0, false, .vint 1, some (some ⟨0, [("id", .vint 1)]⟩)⟩
      (some ⟨0, [("id", .vint 1)]⟩) rfl⟩

end TyDB
